import Mathlib

/-!
Verification of the petra-bridge HTTP server core.

This file is a shallow embedding, in Lean 4, of the request-dispatch layer
and the link-graph query engine of the petra-bridge Obsidian plugin:

* src/server.ts           — auth gate, body-size guard, timeout, dispatch
* src/routes/links.ts     — backlink and outlink queries
* src/routes/graph.ts     — graph traversal and whole-graph snapshot
* src/routes/search.ts    — full-text search over batched reads
* src/utils.ts            — normalizePath, getContext, processBatch, ...

JavaScript strings are modelled as Lean String values (sequences of
characters; the JS length in UTF-16 units is modelled by character
counts, and Node Buffers by UTF-8 byte lists).  The Obsidian vault and
metadata cache are modelled as an explicit structure of files, per-file
caches, a link-resolution function and a read function; a read that
throws is the Option none case.  Mutable accumulation in the handlers is
modelled by explicit state passing that preserves statement order, so
list contents and their order match what the JS code pushes.
-/

namespace Petra

/-! ## String helpers -/

/-- Boolean suffix test over the character data of a string. -/
def strEndsWith (s suffix : String) : Bool :=
  suffix.data.isSuffixOf s.data

/-- Boolean prefix test over the character data of a string. -/
def strStartsWith (s pre : String) : Bool :=
  pre.data.isPrefixOf s.data

/-- Strip one trailing ".md" extension: models the recurring JS idiom
path.replace with the anchored pattern dot-md-end. -/
def stripMd (s : String) : String :=
  if strEndsWith s ".md" then ⟨s.data.take (s.data.length - 3)⟩ else s

/-- Models normalizePath from src/utils.ts: drop a single leading slash,
then append ".md" unless the path already ends with it. -/
def normalizePath (p : String) : String :=
  let p := if strStartsWith p "/" then ⟨p.data.drop 1⟩ else p
  if strEndsWith p ".md" then p else p ++ ".md"

/-- Splitting a character list at every occurrence of a separator
character, keeping empty pieces, as the JS String split on a
single-character separator does. -/
def jsSplitChars (sep : Char) : List Char → List (List Char)
  | [] => [[]]
  | c :: cs =>
    if c = sep then [] :: jsSplitChars sep cs
    else
      match jsSplitChars sep cs with
      | [] => [[c]]
      | p :: ps => (c :: p) :: ps

/-- JS split on a single space, lifted to String. -/
def jsSplitSpace (s : String) : List String :=
  (jsSplitChars ' ' s.data).map String.mk

/-- UTF-8 bytes of a string: the byte content of the Node Buffer built by
Buffer.from with the utf8 encoding. -/
def utf8Bytes (s : String) : List UInt8 :=
  s.data.flatMap String.utf8EncodeChar

/-- First index at which the needle occurs in the haystack, as JS
String.indexOf (none models the JS result -1). -/
def strIndexOf? : List Char → List Char → Option Nat
  | [], needle => if needle.isEmpty then some 0 else none
  | c :: t, needle =>
    if needle.isPrefixOf (c :: t) then some 0
    else (strIndexOf? t needle).map (· + 1)

/-- JS String.includes, over Lean strings. -/
def strIncludes (hay needle : String) : Bool :=
  (strIndexOf? hay.data needle.data).isSome

/-- JS String.toLowerCase, character by character. -/
def toLowerStr (s : String) : String :=
  ⟨s.data.map Char.toLower⟩

/-- Whitespace for the purposes of JS String.trim (the characters that
occur in this code base). -/
def isWsp (c : Char) : Bool :=
  c = ' ' ∨ c = '\t' ∨ c = '\n' ∨ c = '\r'

/-- JS String.trim over the character data. -/
def jsTrim (s : String) : String :=
  ⟨((s.data.dropWhile isWsp).reverse.dropWhile isWsp).reverse⟩

/-! ## Body ingestion and the size guard (src/server.ts, parseBody) -/

/-- Maximum accepted request body size in bytes, from src/server.ts. -/
def MAX_BODY_SIZE : Nat := 10 * 1024 * 1024

/-- Models the data-event loop of parseBody (src/server.ts), tracking the
accumulated byte count only: chunk byte lengths are consumed in order and
the promise rejects with the distinguished too-large error as soon as the
running total exceeds MAX_BODY_SIZE.  none is that rejection; some total
is clean completion of the stream with the total byte count. -/
def parseBodySize (size : Nat) : List Nat → Option Nat
  | [] => some size
  | c :: rest =>
    let size := size + c
    if size > MAX_BODY_SIZE then none else parseBodySize size rest

/-- Outcome of the body-ingestion step of handleRequest (src/server.ts):
either the handler is reached with the body (none standing for the
undefined no-body sentinel produced for an empty accumulation, some n for
a body of n bytes), or the request is answered early with status 413
(size cap exceeded) or status 400 (stream error while reading). -/
inductive BodyOutcome where
  | handlerReached (body : Option Nat)
  | tooLarge413
  | parseError400
deriving DecidableEq, Repr

/-- Models the body branch of handleRequest (src/server.ts): parseBody is
awaited; a rejection whose message is the too-large message maps to a 413
response, any other rejection (a stream error event, modelled by the
streamError flag) maps to a 400 response; otherwise the handler runs. -/
def bodyDispatch (chunks : List Nat) (streamError : Bool) : BodyOutcome :=
  match parseBodySize 0 chunks with
  | none => .tooLarge413
  | some total =>
    if streamError then .parseError400
    else .handlerReached (if total = 0 then none else some total)

/-! ## Authentication gate (src/server.ts, checkAuth) -/

/-- Models checkAuth (src/server.ts).  A null or empty configured token
is falsy in JS, so authentication is disabled; otherwise the header is
split on spaces, the scheme must be Bearer with a nonempty token field,
and the token is compared to the secret by first comparing Buffer byte
lengths and then calling the timing-safe byte comparison, whose result
equals plain byte-sequence equality. -/
def checkAuth (authToken : Option String) (authorization : Option String) : Bool :=
  match authToken with
  | none => true
  | some secret =>
    if secret = "" then true
    else
      match authorization with
      | none => false
      | some header =>
        let parts := jsSplitSpace header
        match parts.get? 0, parts.get? 1 with
        | some ty, some token =>
          if ty ≠ "Bearer" ∨ token = "" then false
          else
            let tokenBuf := utf8Bytes token
            let authBuf := utf8Bytes secret
            if tokenBuf.length ≠ authBuf.length then false
            else tokenBuf == authBuf
        | _, _ => false

/-! ## The vault model

A TFile carries the fields the embedded routes read: the vault-relative
path, the basename (filename without extension), the parent folder path
(with the JS fallback parent-or-empty already applied) and the file
extension.  The metadata cache entry of a file carries its link and embed
references, its parsed frontmatter and its inline tag texts. -/

structure TFile where
  path : String
  basename : String
  parentPath : String
  extension : String
deriving DecidableEq, Repr

/-- One cached reference: the link target text and the original source
text of the reference, as Obsidian caches them. -/
structure LinkCache where
  link : String
  original : String
deriving DecidableEq, Repr

/-- Cached frontmatter fields read by the embedded routes. -/
structure Frontmatter where
  title : Option String
  tags : Option (List String)
  created : Option String
  modified : Option String
deriving DecidableEq, Repr

/-- Cached metadata of one file.  A JS cache object whose links or embeds
key is absent behaves, in every embedded route, exactly like one carrying
an empty array (each route only iterates the arrays), so both are
modelled by the empty list. -/
structure FileCache where
  links : List LinkCache
  embeds : List LinkCache
  frontmatter : Option Frontmatter
  tags : List String
deriving DecidableEq, Repr

/-- The vault together with its metadata cache: the ordered list of
markdown files, the per-file cache lookup, the link resolution function
(getFirstLinkpathDest, taking the link text and the source path), and
the read function, where none models a read that throws. -/
structure Vault where
  files : List TFile
  cache : TFile → Option FileCache
  resolve : String → String → Option TFile
  read : TFile → Option String

/-- Models app.vault.getAbstractFileByPath restricted to the markdown
files the embedded routes handle: exact path lookup. -/
def getAbstractFileByPath (v : Vault) (p : String) : Option TFile :=
  v.files.find? (fun f => f.path == p)

/-! ## Graph routes (src/routes/graph.ts) -/

/-- The edge kinds of the graph route. -/
inductive EdgeType where
  | wiki
  | markdown
deriving DecidableEq, Repr

structure GraphNode where
  id : String
  title : String
  group : String
deriving DecidableEq, Repr

structure GraphEdge where
  source : String
  target : String
  type : EdgeType
deriving DecidableEq, Repr

structure GraphResult where
  nodes : List GraphNode
  edges : List GraphEdge
deriving DecidableEq, Repr

/-- Traversal direction; inn models the JS string value in. -/
inductive Direction where
  | inn
  | out
  | both
deriving DecidableEq, Repr

/-- The mutable state of the graph-query handler: the node map (a JS Map
in insertion order, keyed by node id), the edge array, and the visited
set (in insertion order; only membership is ever queried). -/
structure TravState where
  nodes : List GraphNode
  edges : List GraphEdge
  visited : List String
deriving DecidableEq, Repr

/-- Models addNode (src/routes/graph.ts): insert a node for the file,
keyed by its extension-stripped path, only if that id is not yet
present. -/
def addNode (st : TravState) (f : TFile) : TravState :=
  if st.nodes.any (fun n => n.id == stripMd f.path) then st
  else { st with nodes := st.nodes ++ [⟨stripMd f.path, f.basename, f.parentPath⟩] }

/-- Append one edge to the result state. -/
def pushEdge (st : TravState) (e : GraphEdge) : TravState :=
  { st with edges := st.edges ++ [e] }

/-- Models getOutlinks (src/routes/graph.ts): resolve every cached link
reference of the file; each resolution hit contributes a wiki edge
target. -/
def getOutlinks (v : Vault) (f : TFile) : List (TFile × EdgeType) :=
  match v.cache f with
  | none => []
  | some c =>
    c.links.filterMap (fun l => (v.resolve l.link f.path).map (fun t => (t, EdgeType.wiki)))

/-- Models the fileMap built by the graph-query handler: every file is
keyed under its path, its basename and its extension-stripped path, in
file order, later entries overwriting earlier ones, so a lookup returns
the last file that registered the key. -/
def fileMapGet (v : Vault) (key : String) : Option TFile :=
  v.files.reverse.find? (fun f =>
    f.path == key || f.basename == key || stripMd f.path == key)

/-- Models the lookup in traverse: fileMap.get of the raw start path,
falling back to the start path with ".md" appended. -/
def lookupFile (v : Vault) (p : String) : Option TFile :=
  match fileMapGet v p with
  | some f => some f
  | none => fileMapGet v (p ++ ".md")

/-- The shared body of the outgoing-link loops: add the resolved target
as a node and record the edge from the current file id to the target id
with the discovered edge type. -/
def snapEdgeStep (fileId : String) (st : TravState) (te : TFile × EdgeType) : TravState :=
  pushEdge (addNode st te.1) ⟨fileId, stripMd te.1.path, te.2⟩

/-- The body of the outgoing-link loop of traverse: record node and edge,
then expand the target at the next depth via the rec argument. -/
def outStep (rec : String → TravState → TravState) (fileId : String)
    (st : TravState) (te : TFile × EdgeType) : TravState :=
  rec te.1.path (snapEdgeStep fileId st te)

/-- The body of the incoming-link scan of traverse: skip the current file
itself; otherwise, if the first cached link of the scanned file resolving
to the current file exists, add the scanned file as a node, record the
reversed edge and expand the scanned file at the next depth (the JS loop
breaks after the first matching link). -/
def innStep (v : Vault) (rec : String → TravState → TravState)
    (filePath fileId : String) (st : TravState) (other : TFile) : TravState :=
  if other.path = filePath then st
  else
    match v.cache other with
    | none => st
    | some c =>
      match c.links.find? (fun l =>
          (v.resolve l.link other.path).map TFile.path == some filePath) with
      | none => st
      | some _ => rec other.path (pushEdge (addNode st other) ⟨stripMd other.path, fileId, .wiki⟩)

/-- One expansion of traverse (src/routes/graph.ts) with the recursive
call at the next depth abstracted as the rec argument: the visited set
gates re-entry on the raw start-path string, the start file is resolved
through the file map and added as a node, then, per direction, every
resolved outgoing link and every scanned incoming link contributes the
neighbour node, the edge, and a recursive expansion of the neighbour. -/
def expandFile (v : Vault) (dir : Direction)
    (rec : String → TravState → TravState)
    (file : TFile) (st : TravState) : TravState :=
  let st := addNode st file
  let fileId := stripMd file.path
  let st :=
    if dir = .out ∨ dir = .both then
      (getOutlinks v file).foldl (outStep rec fileId) st
    else st
  if dir = .inn ∨ dir = .both then
    v.files.foldl (innStep v rec file.path fileId) st
  else st

/-- One expansion of traverse continued: gate on the visited set, record
the raw start path as visited, resolve the start file through the file
map, and expand it. -/
def traverseStep (v : Vault) (dir : Direction)
    (rec : String → TravState → TravState)
    (startPath : String) (st : TravState) : TravState :=
  if st.visited.contains startPath then st
  else
    let st := { st with visited := st.visited ++ [startPath] }
    match lookupFile v startPath with
    | none => st
    | some file => expandFile v dir rec file st

/-- Models traverse (src/routes/graph.ts).  The JS function carries the
current depth and returns as soon as currentDepth exceeds the requested
depth; every recursive call increments currentDepth.  Here that budget is
carried directly: fuel stands for depth + 1 - currentDepth, so fuel zero
is exactly the JS early return, and the top-level call at currentDepth
zero receives fuel depth + 1. -/
def traverse (v : Vault) (dir : Direction) : Nat → String → TravState → TravState
  | 0, _, st => st
  | fuel + 1, startPath, st => traverseStep v dir (traverse v dir fuel) startPath st

/-- The empty accumulation state of a graph query. -/
def emptyTrav : TravState := ⟨[], [], []⟩

/-- One iteration of the whole-graph snapshot loop (src/routes/graph.ts,
the branch taken when no start note is given): add the file as a node and
add each of its resolved outgoing links as a node plus an edge, with no
recursion.  The per-file try-catch is unreachable in this pure model. -/
def snapshotStep (v : Vault) (st : TravState) (file : TFile) : TravState :=
  let st := addNode st file
  let fileId := stripMd file.path
  (getOutlinks v file).foldl (snapEdgeStep fileId) st

/-- The whole-graph snapshot: the loop above over the first hundred
files. -/
def snapshot (v : Vault) : TravState :=
  (v.files.take 100).foldl (snapshotStep v) emptyTrav

/-- The request body of the graph-query route, before defaulting:
fromParam models the optional from field, and a missing depth or
direction is the Option none case. -/
structure GraphQueryBody where
  fromParam : Option String
  depthParam : Option Nat
  directionParam : Option Direction

/-- Models the graph-query handler (src/routes/graph.ts): depth defaults
to one and direction to both; a falsy from value (absent or empty) takes
the snapshot branch, otherwise traverse runs from the given start with
budget depth + 1 (currentDepth starting at zero). -/
def graphQuery (v : Vault) (body : GraphQueryBody) : GraphResult :=
  let depth := body.depthParam.getD 1
  let direction := body.directionParam.getD .both
  let st :=
    match body.fromParam with
    | some f => if f = "" then snapshot v else traverse v direction (depth + 1) f emptyTrav
    | none => snapshot v
  ⟨st.nodes, st.edges⟩

/-! ## Shared utilities (src/utils.ts) -/

/-- Models getContext (src/utils.ts): locate the search text in the
content; on a miss return the empty string, otherwise slice a window from
thirty characters before the hit to thirty characters after it, replace
newlines by spaces, trim, and mark a clipped window with leading or
trailing ellipses.  The declared maxLen parameter of the JS function is
never used by its body and is dropped here; Nat subtraction models the
clamp of the window start at zero. -/
def getContext (content searchText : String) : String :=
  match strIndexOf? content.data searchText.data with
  | none => ""
  | some idx =>
    let cs := content.data
    let start := idx - 30
    let stop := min cs.length (idx + searchText.data.length + 30)
    let ctx := ((cs.drop start).take (stop - start)).map (fun c => if c = '\n' then ' ' else c)
    let ctx := jsTrim ⟨ctx⟩
    let ctx := if start > 0 then "..." ++ ctx else ctx
    if stop < cs.length then ctx ++ "..." else ctx

/-- Case-insensitive character comparison for the i regex flag. -/
def lowerEq (a b : Char) : Bool :=
  a.toLower == b.toLower

/-- Whether the pattern is a case-insensitive prefix of the text. -/
def ciPrefix : List Char → List Char → Bool
  | [], _ => true
  | _ :: _, [] => false
  | p :: ps, c :: cs => lowerEq p c && ciPrefix ps cs

/-- Match, at the head of the text, the regex used by the backlinks route
for context extraction: two open brackets, the target basename (matched
literally, case-insensitively; basenames containing regex
metacharacters are outside this model), then either a closing pair of
brackets directly, or a pipe, one or more characters other than a
closing bracket, and the closing pair.  Returns the matched text. -/
def wikiMatchAt (basename text : List Char) : Option (List Char) :=
  match text with
  | '[' :: '[' :: rest =>
    if ciPrefix basename rest then
      let matched := rest.take basename.length
      match rest.drop basename.length with
      | ']' :: ']' :: _ => some ('[' :: '[' :: (matched ++ [']', ']']))
      | '|' :: tail =>
        let alia := tail.takeWhile (fun c => c ≠ ']')
        if alia.isEmpty then none
        else
          match tail.drop alia.length with
          | ']' :: ']' :: _ => some ('[' :: '[' :: (matched ++ '|' :: (alia ++ [']', ']'])))
          | _ => none
      | _ => none
    else none
  | _ => none

/-- Scan for the first position at which the wiki-link regex matches. -/
def wikiScan (basename : List Char) : List Char → Option (List Char)
  | [] => none
  | c :: t =>
    match wikiMatchAt basename (c :: t) with
    | some m => some m
    | none => wikiScan basename t

/-- Models the JS content.match call of the backlinks route: first match
of the wiki-link pattern for the given basename. -/
def wikiLinkMatch (content basename : String) : Option String :=
  (wikiScan basename.data content.data).map String.mk

/-- Minimal note info for listings, from the shared types. -/
structure NoteInfo where
  path : String
  title : String
  tags : List String
  created : Option String
  modified : Option String
deriving DecidableEq, Repr

/-- Models fileToNoteInfo (src/utils.ts): prefer the cache passed by the
caller, falling back to the metadata cache; the path is the file path
without the md extension; a missing or empty frontmatter title falls
back to the basename; tags are the frontmatter tag list followed by the
inline tags with a leading hash stripped, deduplicated against the tags
collected so far. -/
def fileToNoteInfo (v : Vault) (file : TFile) (cache : Option FileCache) : NoteInfo :=
  let metadata := match cache with
    | some c => some c
    | none => v.cache file
  let fm := metadata.bind (fun m => m.frontmatter)
  let fmTags := match fm.bind (fun f => f.tags) with
    | some ts => ts
    | none => []
  let inlineTags := match metadata with
    | some m => m.tags
    | none => []
  let tags := inlineTags.foldl (fun acc tg =>
    let tagName := if strStartsWith tg "#" then ⟨tg.data.drop 1⟩ else tg
    if acc.contains tagName then acc else acc ++ [tagName]) fmTags
  { path := stripMd file.path
    title :=
      match fm.bind (fun f => f.title) with
      | some t => if t = "" then file.basename else t
      | none => file.basename
    tags := tags
    created := fm.bind (fun f => f.created)
    modified := fm.bind (fun f => f.modified) }

/-- Result of one processed item in a parallel batch: the JS processor
returns a promise of a value or null and may throw; the thrown case is
the error constructor. -/
def runItem {α β ε : Type} (proc : α → Except ε (Option β)) (a : α) : Option β :=
  match proc a with
  | .error _ => none
  | .ok r => r

/-- Models the batching loop of processBatch (src/utils.ts): consume the
items batchSize at a time; within a batch every item is processed with a
per-item catch that turns a thrown error into null; non-null results are
collected in order.  The loop advances by batchSize per round, so the
item count bounds the number of rounds whenever batchSize is positive
(the only way the JS code calls it); the fuel argument carries that
bound. -/
def processBatchAux {α β ε : Type} (proc : α → Except ε (Option β)) (batchSize : Nat) :
    Nat → List α → List β
  | 0, _ => []
  | _, [] => []
  | fuel + 1, items =>
    let batch := items.take batchSize
    let batchResults := batch.map (runItem proc)
    batchResults.filterMap id ++ processBatchAux proc batchSize fuel (items.drop batchSize)

/-- Models processBatch (src/utils.ts). -/
def processBatch {α β ε : Type} (items : List α) (proc : α → Except ε (Option β))
    (batchSize : Nat) : List β :=
  processBatchAux proc batchSize items.length items

/-! ## Link routes (src/routes/links.ts) -/

/-- One outlink entry as the outlinks route reports it. -/
structure LinkInfo where
  path : String
  title : String
  exists_ : Bool
  context : String
deriving DecidableEq, Repr

/-- One backlink entry: the note info of the linking note plus the
extracted context. -/
structure BacklinkInfo where
  note : NoteInfo
  context : String
deriving DecidableEq, Repr

/-- Errors a route handler can answer with: a 404 not-found response, or
an exception propagating to the dispatcher as a 500 response. -/
inductive RouteErr where
  | notFound (msg : String)
  | invalid (msg : String)
  | internal (msg : String)
deriving DecidableEq, Repr

/-- The body of the links loop of the outlinks route: skip link texts
already seen, record the link text as seen, and push one entry — the
resolved target with its extension-stripped path and exists true, or the
raw link text with exists false — with context extracted around the
original link text. -/
def outlinkLinkStep (v : Vault) (sourcePath content : String)
    (acc : List LinkInfo × List String) (l : LinkCache) : List LinkInfo × List String :=
  if acc.2.contains l.link then acc
  else
    let seen := acc.2 ++ [l.link]
    match v.resolve l.link sourcePath with
    | some r => (acc.1 ++ [⟨stripMd r.path, r.basename, true, getContext content l.original⟩], seen)
    | none => (acc.1 ++ [⟨l.link, l.link, false, getContext content l.original⟩], seen)

/-- The body of the embeds loop of the outlinks route: skip embed texts
already seen, record them as seen, and push an entry only when the embed
resolves to a markdown file. -/
def outlinkEmbedStep (v : Vault) (sourcePath content : String)
    (acc : List LinkInfo × List String) (e : LinkCache) : List LinkInfo × List String :=
  if acc.2.contains e.link then acc
  else
    let seen := acc.2 ++ [e.link]
    match v.resolve e.link sourcePath with
    | some r =>
      if r.extension = "md" then
        (acc.1 ++ [⟨stripMd r.path, r.basename, true, getContext content e.original⟩], seen)
      else (acc.1, seen)
    | none => (acc.1, seen)

/-- Models the outlinks route handler (src/routes/links.ts): normalize
the path parameter, look the source note up (404 on a miss), read its
content (a throwing read propagates as an internal error), then run the
links loop and the embeds loop over the cached references, sharing one
seen set. -/
def outlinksHandler (v : Vault) (pathParam : String) : Except RouteErr (List LinkInfo) :=
  let sourcePath := normalizePath pathParam
  match getAbstractFileByPath v sourcePath with
  | none => .error (.notFound ("Note not found: " ++ pathParam))
  | some sourceFile =>
    let cache := v.cache sourceFile
    match v.read sourceFile with
    | none => .error (.internal "read failed")
    | some content =>
      let links := match cache with
        | some c => c.links
        | none => []
      let embeds := match cache with
        | some c => c.embeds
        | none => []
      let s1 := links.foldl (outlinkLinkStep v sourcePath content) ([], [])
      let s2 := embeds.foldl (outlinkEmbedStep v sourcePath content) s1
      .ok s2.1

/-- The per-file body of the backlinks scan (src/routes/links.ts): the
target file itself is skipped; a file with no cache entry is skipped (a
cache whose links and embeds are both missing behaves like one with two
empty arrays, both modelled by empty lists); otherwise the file counts
as a backlink when any cached link or embed resolves to the target path,
in which case the note is read for context extraction — a throwing read
is caught by the per-file try-catch and the note is skipped. -/
def backlinkEntry (v : Vault) (targetPath targetBasename : String) (file : TFile) :
    List BacklinkInfo :=
  if file.path = targetPath then []
  else
    match v.cache file with
    | none => []
    | some c =>
      if (c.links ++ c.embeds).any (fun l =>
          (v.resolve l.link file.path).map TFile.path == some targetPath) then
        match v.read file with
        | none => []
        | some content =>
          [⟨fileToNoteInfo v file (v.cache file),
            match wikiLinkMatch content targetBasename with
            | some m => getContext content m
            | none => ""⟩]
      else []

/-- Models the backlinks route handler (src/routes/links.ts): normalize
the path parameter, look the target up (404 on a miss), then scan every
vault file with the per-file body above, concatenating the entries in
file order. -/
def backlinksHandler (v : Vault) (pathParam : String) : Except RouteErr (List BacklinkInfo) :=
  let targetPath := normalizePath pathParam
  match getAbstractFileByPath v targetPath with
  | none => .error (.notFound ("Note not found: " ++ pathParam))
  | some targetFile =>
    .ok (v.files.flatMap (backlinkEntry v targetPath targetFile.basename))

/-! ## Search route (src/routes/search.ts) -/

/-- One match found in a note, from the shared types. -/
structure SearchMatch where
  line : Nat
  text : String
deriving DecidableEq, Repr

/-- One search result, from the shared types. -/
structure SearchResult where
  note : NoteInfo
  matches_ : List SearchMatch
deriving DecidableEq, Repr

/-- A JSON string literal without escaping (frontmatter values containing
characters that JSON escapes are outside this model). -/
def jsonQuote (s : String) : String := "\"" ++ s ++ "\""

/-- Models the JSON.stringify call of the search route on a cached
frontmatter object, with the model fields serialized in a fixed order
and absent fields omitted. -/
def fmJson (fm : Frontmatter) : String :=
  let fields : List (Option String) :=
    [fm.title.map (fun t => jsonQuote "title" ++ ":" ++ jsonQuote t),
     fm.tags.map (fun ts =>
       jsonQuote "tags" ++ ":[" ++ String.intercalate "," (ts.map jsonQuote) ++ "]"),
     fm.created.map (fun c => jsonQuote "created" ++ ":" ++ jsonQuote c),
     fm.modified.map (fun m => jsonQuote "modified" ++ ":" ++ jsonQuote m)]
  "\x7b" ++ String.intercalate "," (fields.filterMap id) ++ "\x7d"

/-- Stable insertion of an element after every element the comparator
places before or equal to it. -/
def sortedInsert {α : Type} (le : α → α → Bool) (a : α) : List α → List α
  | [] => [a]
  | b :: bs => if le b a then b :: sortedInsert le a bs else a :: b :: bs

/-- A stable sort, modelling the JS Array sort (stable per the language
specification); le x y holds when x precedes or ties y under the JS
comparator. -/
def stableSort {α : Type} (le : α → α → Bool) (l : List α) : List α :=
  l.foldl (fun acc a => sortedInsert le a acc) []

/-- The per-file body of the search scan (src/routes/search.ts); the
results list is the closed-over mutable array.  A file is skipped when
the result limit is already reached; a throwing read is caught by the
per-file try-catch and the file is skipped.  Otherwise the frontmatter
block is skipped by locating the second frontmatter fence from character
four on, every remaining line containing the query (lowercased unless
the search is case sensitive) contributes a match with its one-based
line number, a frontmatter hit contributes a line-zero match, and a file
with matches is appended while the limit allows. -/
def searchFileStep (v : Vault) (caseSensitive : Bool) (searchQuery : String) (limit : Nat)
    (results : List SearchResult) (file : TFile) : List SearchResult :=
  if results.length ≥ limit then results
  else
    match v.read file with
    | none => results
    | some content =>
      let bodyTxt : String :=
        match (strIndexOf? (content.data.drop 4) ("---\n").data).map (· + 4) with
        | some bodyStart => ⟨content.data.drop (bodyStart + 4)⟩
        | none => content
      let lines := (jsSplitChars '\n' bodyTxt.data).map String.mk
      let lineMatches : List SearchMatch := lines.enum.filterMap (fun p =>
        let searchLine := if caseSensitive then p.2 else toLowerStr p.2
        if strIncludes searchLine searchQuery then some ⟨p.1 + 1, jsTrim p.2⟩ else none)
      let cache := v.cache file
      let fmMatches : List SearchMatch :=
        match cache.bind (fun c => c.frontmatter) with
        | some fm =>
          let fmStr := fmJson fm
          let searchFm := if caseSensitive then fmStr else toLowerStr fmStr
          if strIncludes searchFm searchQuery then
            [⟨0, "[frontmatter] " ++ ⟨fmStr.data.take 100⟩⟩]
          else []
        | none => []
      let matchList := lineMatches ++ fmMatches
      if matchList.length > 0 ∧ results.length < limit then
        results ++ [⟨fileToNoteInfo v file cache, matchList⟩]
      else results

/-- The search request body before defaulting. -/
structure SearchBody where
  query : Option String
  folder : Option String
  limit : Option Nat
  caseSensitive : Option Bool

/-- Models the search route handler (src/routes/search.ts): a falsy
query is a 400 error; limit defaults to twenty and case sensitivity to
false; an optional nonempty folder restricts the scan to files whose
path starts with it; files are then scanned in order (the batching of
reads does not affect which results accumulate), sorted by descending
match count and truncated to the limit. -/
def searchRoute (v : Vault) (b : SearchBody) : Except RouteErr (List SearchResult) :=
  let query := b.query.getD ""
  if query = "" then .error (.invalid "Query is required")
  else
    let caseSensitive := b.caseSensitive.getD false
    let limit := b.limit.getD 20
    let searchQuery := if caseSensitive then query else toLowerStr query
    let files := match b.folder with
      | some folder =>
        if folder = "" then v.files
        else v.files.filter (fun f => strStartsWith f.path folder)
      | none => v.files
    let results := files.foldl (searchFileStep v caseSensitive searchQuery limit) []
    .ok ((stableSort (fun a b => b.matches_.length ≤ a.matches_.length) results).take limit)

/-! ## Health endpoint and dispatch prefix (src/server.ts, handleRequest) -/

/-- The plugin version from the shared constants. -/
def VERSION : String := "0.1.2"

/-- The JSON values the dispatcher serializes. -/
inductive Json where
  | str (s : String)
  | num (n : Nat)
  | bool (b : Bool)
  | obj (fields : List (String × Json))

/-- The vault data the health endpoint reads: the vault name and the
markdown file count. -/
structure VaultInfo where
  name : String
  fileCount : Nat

/-- The body sent to unauthenticated health probes. -/
def healthMinimal : Json :=
  .obj [("ok", .bool true), ("data", .obj [("status", .str "healthy")])]

/-- The body sent to authenticated health probes. -/
def healthFull (vault : VaultInfo) : Json :=
  .obj [("ok", .bool true),
        ("data", .obj [("status", .str "healthy"), ("version", .str VERSION),
                       ("vault", .str vault.name), ("fileCount", .num vault.fileCount)])]

/-- An error envelope as sendError builds it. -/
def errorJson (code msg : String) : Json :=
  .obj [("ok", .bool false),
        ("error", .obj [("code", .str code), ("message", .str msg)])]

/-- The request data the dispatch prefix reads. -/
structure Request where
  method : String
  path : String
  authorization : Option String

/-- Where the dispatch prefix ends: an early response (status and body),
or continuation into the route-table scan. -/
inductive DispatchStage where
  | responded (status : Nat) (body : Json)
  | routing

/-- Models the prefix of handleRequest (src/server.ts) before the route
scan: a GET of the health path short-circuits, answering the minimal
liveness body to a failing auth check and the full body (version, vault
name, file count) otherwise; every other request first passes the auth
gate, failing with a 401 error envelope. -/
def dispatchPre (authToken : Option String) (vault : VaultInfo) (req : Request) :
    DispatchStage :=
  if req.path = "/health" ∧ req.method = "GET" then
    if checkAuth authToken req.authorization = false then .responded 200 healthMinimal
    else .responded 200 (healthFull vault)
  else
    if checkAuth authToken req.authorization = false then
      .responded 401 (errorJson "AUTH_REQUIRED" "Authorization required")
    else .routing

/-! ## Timeout supervision (src/server.ts, withTimeout and its catch)

The timing model: a handler run is summarized by the instant its promise
settles and the optional instant at which it ends its response.  The
withTimeout race rejects with the timeout error exactly when the timer
deadline elapses strictly before the promise settles; the catch around
it then consults res.writableEnded at the deadline instant. -/

/-- The route timeout in milliseconds, from src/server.ts. -/
def ROUTE_TIMEOUT : Nat := 30000

/-- A handler execution summarized by its timing. -/
structure HandlerRun where
  duration : Nat
  writesAt : Option Nat

/-- How the withTimeout race ends. -/
inductive TimeoutOutcome where
  | timedOut
  | settled
deriving DecidableEq, Repr

/-- Models withTimeout (src/server.ts): the timer rejection wins exactly
when the deadline elapses before the handler promise settles; otherwise
the promise settles first and the timer is cleared. -/
def withTimeout (run : HandlerRun) (ms : Nat) : TimeoutOutcome :=
  if ms < run.duration then .timedOut else .settled

/-- Whether the response has been ended by instant t. -/
def responseWrittenBy (run : HandlerRun) (t : Nat) : Bool :=
  match run.writesAt with
  | some w => w ≤ t
  | none => false

/-- Models the timeout branch of the catch in handleRequest
(src/server.ts): on the timeout rejection, a 504 error is written only
if res.writableEnded is still false; when the promise settled in time
the timeout path writes nothing.  The returned list collects the status
codes this path writes. -/
def timeoutPathWrites (run : HandlerRun) : List Nat :=
  match withTimeout run ROUTE_TIMEOUT with
  | .timedOut => if responseWrittenBy run ROUTE_TIMEOUT then [] else [504]
  | .settled => []

/-! ## Concrete vaults used as test inputs -/

/-- A note A.md linking to B.md. -/
def fileA : TFile := ⟨"A.md", "A", "", "md"⟩

/-- A note B.md linking back to A.md. -/
def fileB : TFile := ⟨"B.md", "B", "", "md"⟩

/-- The cyclic two-note vault A to B to A. -/
def cycleVault : Vault where
  files := [fileA, fileB]
  cache := fun f =>
    if f = fileA then some ⟨[⟨"B", "[[B]]"⟩], [], none, []⟩
    else if f = fileB then some ⟨[⟨"A", "[[A]]"⟩], [], none, []⟩
    else none
  resolve := fun link _src =>
    if link = "B" then some fileB else if link = "A" then some fileA else none
  read := fun f =>
    if f = fileA then some "a text [[B]]"
    else if f = fileB then some "b text [[A]]"
    else none

/-- A single note that links to itself. -/
def fileSelf : TFile := ⟨"A.md", "A", "", "md"⟩

/-- The one-note vault whose note references itself. -/
def selfVault : Vault where
  files := [fileSelf]
  cache := fun f =>
    if f = fileSelf then some ⟨[⟨"A", "[[A]]"⟩], [], none, []⟩ else none
  resolve := fun link _src => if link = "A" then some fileSelf else none
  read := fun f => if f = fileSelf then some "self link [[A]] here" else none

/-- The cyclic vault with the read of B.md failing. -/
def brokenReadVault : Vault :=
  { cycleVault with read := fun f => if f = fileB then none else cycleVault.read f }

deriving instance DecidableEq for Except

/-! ## Derived notions used in the statements -/

/-- Whether the accumulated node set contains a node with the given id. -/
def hasNode (st : TravState) (id : String) : Bool :=
  st.nodes.any (fun n => n.id == id)

/-- The node/edge invariant of the graph query: both endpoints of every
accumulated edge are present in the accumulated node set. -/
def edgesCovered (st : TravState) : Prop :=
  ∀ e ∈ st.edges, hasNode st e.source = true ∧ hasNode st e.target = true

/-- The non-recursive single-file expansion a depth-zero traversal
actually performs: the start node plus one node and one wiki edge per
resolved outgoing link of the start file, with no neighbour expanded. -/
def depthZeroExpansion (v : Vault) (p : String) : GraphResult :=
  match lookupFile v p with
  | none => ⟨[], []⟩
  | some file =>
    let st := addNode ⟨[], [], [p]⟩ file
    let st := (getOutlinks v file).foldl (snapEdgeStep (stripMd file.path)) st
    ⟨st.nodes, st.edges⟩

/-- Well-formedness of a vault as Obsidian maintains it: markdown file
paths end in ".md" (exactly one such extension, with no leading slash)
and are pairwise distinct, and link resolution only returns files of the
vault. -/
structure VaultWF (v : Vault) : Prop where
  paths_md : ∀ f ∈ v.files, strEndsWith f.path ".md" = true
  no_double_md : ∀ f ∈ v.files, strEndsWith (stripMd f.path) ".md" = false
  no_lead_slash : ∀ f ∈ v.files, strStartsWith f.path "/" = false
  paths_nodup : (v.files.map TFile.path).Nodup
  resolve_mem : ∀ l src f, v.resolve l src = some f → f ∈ v.files

/-! ## Theorems -/

theorem foldl_preserve {σ α : Type _} {P : σ → Prop} (f : σ → α → σ) :
    ∀ (l : List α), (∀ s a, a ∈ l → P s → P (f s a)) → ∀ s, P s → P (l.foldl f s) := by
  intro l
  induction l with
  | nil => intro _ s hs; simpa using hs
  | cons x xs ih =>
    intro h s hs
    simp only [List.foldl_cons]
    exact ih (fun s a ha hp => h s a (List.mem_cons_of_mem _ ha) hp) _
      (h s x (List.mem_cons_self _ _) hs)

theorem parseBodySize_complete (chunks : List Nat) :
    ∀ size, size + chunks.sum ≤ MAX_BODY_SIZE →
      parseBodySize size chunks = some (size + chunks.sum) := by
  induction chunks with
  | nil => intro size _; simp [parseBodySize]
  | cons c rest ih =>
    intro size h
    simp only [List.sum_cons] at h ⊢
    have hc : ¬ (size + c > MAX_BODY_SIZE) := by omega
    simp only [parseBodySize, if_neg hc]
    rw [ih (size + c) (by omega)]
    congr 1
    omega

theorem parseBodySize_reject (chunks : List Nat) :
    ∀ size, size ≤ MAX_BODY_SIZE → size + chunks.sum > MAX_BODY_SIZE →
      parseBodySize size chunks = none := by
  induction chunks with
  | nil => intro size h1 h2; simp at h2; omega
  | cons c rest ih =>
    intro size h1 h2
    simp only [List.sum_cons] at h2
    by_cases hc : size + c > MAX_BODY_SIZE
    · simp only [parseBodySize, if_pos hc]
    · simp only [parseBodySize, if_neg hc]
      exact ih (size + c) (by omega) (by omega)

/-- C4: a request body totalling exactly MAX_BODY_SIZE bytes completes
ingestion and reaches the handler, while a body one byte larger is
answered with the 413 too-large outcome and never with the generic 400
parse-failure outcome. -/
theorem body_cap_boundary (chunks : List Nat) :
    (chunks.sum = MAX_BODY_SIZE →
       bodyDispatch chunks false = .handlerReached (some MAX_BODY_SIZE)) ∧
    (chunks.sum = MAX_BODY_SIZE + 1 →
       bodyDispatch chunks false = .tooLarge413 ∧
       bodyDispatch chunks false ≠ .parseError400) := by
  constructor
  · intro h
    unfold bodyDispatch
    rw [parseBodySize_complete chunks 0 (by omega)]
    simp [h, MAX_BODY_SIZE]
  · intro h
    unfold bodyDispatch
    rw [parseBodySize_reject chunks 0 (by omega) (by omega)]
    exact ⟨rfl, by decide⟩

theorem body_cap_boundary_witness :
    bodyDispatch [10485760] false = .handlerReached (some 10485760) ∧
    bodyDispatch [10485760, 1] false = .tooLarge413 :=
  ⟨(body_cap_boundary [10485760]).1 (by decide),
   ((body_cap_boundary [10485760, 1]).2 (by decide)).1⟩

theorem jsSplitChars_no_sep (sep : Char) :
    ∀ l : List Char, sep ∉ l → jsSplitChars sep l = [l] := by
  intro l
  induction l with
  | nil => intro _; rfl
  | cons c cs ih =>
    intro h
    have hc : ¬ (c = sep) := fun hh => h (hh ▸ List.mem_cons_self c cs)
    have hcs : sep ∉ cs := fun hh => h (List.mem_cons_of_mem c hh)
    simp only [jsSplitChars, if_neg hc, ih hcs]

theorem strMk_data (s : String) : String.mk s.data = s := rfl

theorem jsSplitSpace_bearer (t : String) (h : ' ' ∉ t.data) :
    jsSplitSpace ("Bearer " ++ t) = ["Bearer", t] := by
  unfold jsSplitSpace
  have hd : ("Bearer " ++ t).data =
      'B' :: 'e' :: 'a' :: 'r' :: 'e' :: 'r' :: ' ' :: t.data := by
    rw [String.data_append]
    rfl
  rw [hd]
  simp only [jsSplitChars, jsSplitChars_no_sep ' ' t.data h, reduceIte, List.map]

/-- C5: with no configured token the auth gate accepts every request;
with a configured (nonempty) token it rejects a missing Authorization
header, a non-Bearer scheme, and a presented token whose UTF-8 byte
length differs from the secret, and it accepts exactly when the
presented token bytes equal the secret bytes. -/
theorem checkAuth_contract :
    (∀ auth, checkAuth none auth = true) ∧
    (∀ secret, secret ≠ "" → checkAuth (some secret) none = false) ∧
    (∀ secret header, secret ≠ "" →
       (jsSplitSpace header).get? 0 ≠ some "Bearer" →
       checkAuth (some secret) (some header) = false) ∧
    (∀ secret t, secret ≠ "" → t ≠ "" → ' ' ∉ t.data →
       ((utf8Bytes t).length ≠ (utf8Bytes secret).length →
          checkAuth (some secret) (some ("Bearer " ++ t)) = false) ∧
       (checkAuth (some secret) (some ("Bearer " ++ t)) = true ↔
          utf8Bytes t = utf8Bytes secret)) := by
  refine ⟨fun _ => rfl, ?_, ?_, ?_⟩
  · intro secret h
    simp [checkAuth, h]
  · intro secret header hsec hbearer
    simp only [checkAuth, if_neg hsec]
    rcases e0 : (jsSplitSpace header).get? 0 with _ | ty
    · rfl
    · rcases e1 : (jsSplitSpace header).get? 1 with _ | token
      · rfl
      · have hty : ty ≠ "Bearer" := by
          intro hh
          exact hbearer (by rw [e0, hh])
        simp [hty]
  · intro secret t hsec ht hsp
    have hsplit := jsSplitSpace_bearer t hsp
    simp only [checkAuth, if_neg hsec, hsplit]
    simp only [List.get?]
    have hne : ¬ ("Bearer" ≠ "Bearer" ∨ t = "") := by
      simp [ht]
    rw [if_neg hne]
    constructor
    · intro hlen
      rw [if_pos hlen]
    · by_cases hlen : (utf8Bytes t).length = (utf8Bytes secret).length
      · rw [if_neg (by simp [hlen])]
        exact beq_iff_eq
      · rw [if_pos hlen]
        constructor
        · intro hh
          exact absurd hh (by simp)
        · intro hh
          exact absurd (congrArg List.length hh) hlen

theorem checkAuth_contract_witness :
    checkAuth (some "s3cret") (some "Bearer s3cret") = true ∧
    checkAuth (some "s3cret") (some "Bearer no") = false ∧
    checkAuth (some "s3cret") none = false :=
  ⟨((checkAuth_contract.2.2.2 "s3cret" "s3cret" (by decide) (by decide) (by decide)).2).mpr rfl,
   (checkAuth_contract.2.2.2 "s3cret" "no" (by decide) (by decide) (by decide)).1 (by decide),
   checkAuth_contract.2.1 "s3cret" (by decide)⟩

/-- C7: whenever a routed handler exceeds the thirty-second deadline, the
timeout path writes the 504 error exactly when no response has been
written by the deadline, writes nothing when the handler already
responded, and never writes more than one response. -/
theorem timeout_single_write (run : HandlerRun) (h : ROUTE_TIMEOUT < run.duration) :
    ((504 ∈ timeoutPathWrites run) ↔ responseWrittenBy run ROUTE_TIMEOUT = false) ∧
    (responseWrittenBy run ROUTE_TIMEOUT = true → timeoutPathWrites run = []) ∧
    (timeoutPathWrites run).length ≤ 1 := by
  unfold timeoutPathWrites withTimeout
  rw [if_pos h]
  cases hw : responseWrittenBy run ROUTE_TIMEOUT <;> simp

theorem timeout_single_write_witness :
    (504 ∈ timeoutPathWrites ⟨30001, none⟩) ↔
      responseWrittenBy ⟨30001, none⟩ ROUTE_TIMEOUT = false :=
  (timeout_single_write ⟨30001, none⟩ (by decide)).1

/-- C6: a GET of the health path that fails the auth check is answered
with exactly the minimal body carrying ok true and status healthy, the
same body for any two vault states, while a request passing the auth
check is answered with the full body carrying the version string, vault
name and markdown file count. -/
theorem health_noninterference :
    (∀ tok auth (v1 v2 : VaultInfo), checkAuth tok auth = false →
       dispatchPre tok v1 ⟨"GET", "/health", auth⟩ = .responded 200 healthMinimal ∧
       dispatchPre tok v1 ⟨"GET", "/health", auth⟩ =
         dispatchPre tok v2 ⟨"GET", "/health", auth⟩) ∧
    (∀ tok auth (v : VaultInfo), checkAuth tok auth = true →
       dispatchPre tok v ⟨"GET", "/health", auth⟩ = .responded 200 (healthFull v)) := by
  constructor
  · intro tok auth v1 v2 h
    constructor <;> simp [dispatchPre, h]
  · intro tok auth v h
    simp [dispatchPre, h]

theorem graphQuery_traverse (v : Vault) (p : String) (hp : p ≠ "") (d : Nat) (dir : Direction) :
    graphQuery v ⟨some p, some d, some dir⟩ =
      ⟨(traverse v dir (d + 1) p emptyTrav).nodes,
       (traverse v dir (d + 1) p emptyTrav).edges⟩ := by
  simp [graphQuery, hp]

theorem traverse_one (v : Vault) (dir : Direction) (p : String) (st : TravState) :
    traverse v dir 1 p st = traverseStep v dir (fun _ s => s) p st := by
  show traverseStep v dir (traverse v dir 0) p st = _
  congr 1

theorem outStep_id (fid : String) : outStep (fun _ s => s) fid = snapEdgeStep fid := by
  funext st te
  rfl

/-- C1 (amended): a graph query with a start note and depth zero expands
exactly the start note once: it returns the start node plus one node and
one edge per resolved outgoing link of the start note, with none of
those neighbours expanded; in particular it returns exactly the start
node and no edges precisely when the start note has no resolved outgoing
links. -/
theorem traverse_depth_zero (v : Vault) (p : String) (hp : p ≠ "") :
    graphQuery v ⟨some p, some 0, some .out⟩ = depthZeroExpansion v p ∧
    (∀ file, lookupFile v p = some file → getOutlinks v file = [] →
       graphQuery v ⟨some p, some 0, some .out⟩ =
         ⟨[⟨stripMd file.path, file.basename, file.parentPath⟩], []⟩) := by
  have hkey : graphQuery v ⟨some p, some 0, some .out⟩ = depthZeroExpansion v p := by
    rw [graphQuery_traverse v p hp 0 Direction.out, traverse_one]
    unfold traverseStep depthZeroExpansion expandFile
    simp only [outStep_id]
    cases hl : lookupFile v p with
    | none => simp [emptyTrav]
    | some file => simp [emptyTrav]
  refine ⟨hkey, ?_⟩
  intro file hfile houtl
  rw [hkey]
  unfold depthZeroExpansion
  simp only [hfile, houtl]
  simp [addNode, hasNode]

theorem traverse_depth_zero_witness :
    graphQuery cycleVault ⟨some "A", some 0, some .out⟩ = depthZeroExpansion cycleVault "A" :=
  (traverse_depth_zero cycleVault "A" (by decide)).1

/-- C1 (counterexample): in the two-note vault where A links to B, the
depth-zero query from A returns the node B and the edge from A to B as
well, not just the node A with no edges as the claim states. -/
theorem depth_zero_counterexample :
    graphQuery cycleVault ⟨some "A", some 0, some Direction.out⟩ =
      ⟨[⟨"A", "A", ""⟩, ⟨"B", "B", ""⟩], [⟨"A", "B", EdgeType.wiki⟩]⟩ ∧
    graphQuery cycleVault ⟨some "A", some 0, some Direction.out⟩ ≠
      ⟨[⟨"A", "A", ""⟩], []⟩ := by
  decide

/-- C2 (counterexample): starting the cyclic traversal from the
extension-less note id A, the visited set (keyed by raw strings) fails
to recognize A.md as already expanded, so A is expanded twice and the
edge from A to B is emitted twice — the edge list is not duplicate
free, contradicting the claim that the visited set prevents any note
from being expanded twice with no duplicated edges. -/
theorem cycle_duplicate_edge_counterexample :
    graphQuery cycleVault ⟨some "A", some 5, some Direction.out⟩ =
      ⟨[⟨"A", "A", ""⟩, ⟨"B", "B", ""⟩],
       [⟨"A", "B", EdgeType.wiki⟩, ⟨"B", "A", EdgeType.wiki⟩, ⟨"A", "B", EdgeType.wiki⟩]⟩ ∧
    ¬ (graphQuery cycleVault ⟨some "A", some 5, some Direction.out⟩).edges.Nodup := by
  decide

/-- C2 (amended): on the cyclic two-note graph the traversal terminates
with node set A, B in both start spellings; started from the file path
A.md it returns exactly the edges A to B and B to A with no duplicates;
started from the extension-less id A it returns the same edges as a set,
but with the A-to-B edge duplicated by the second expansion of A under
its file-path alias. -/
theorem cycle_traversal_result :
    graphQuery cycleVault ⟨some "A.md", some 5, some Direction.out⟩ =
      ⟨[⟨"A", "A", ""⟩, ⟨"B", "B", ""⟩],
       [⟨"A", "B", EdgeType.wiki⟩, ⟨"B", "A", EdgeType.wiki⟩]⟩ ∧
    (graphQuery cycleVault ⟨some "A.md", some 5, some Direction.out⟩).edges.Nodup ∧
    graphQuery cycleVault ⟨some "A", some 5, some Direction.out⟩ =
      ⟨[⟨"A", "A", ""⟩, ⟨"B", "B", ""⟩],
       [⟨"A", "B", EdgeType.wiki⟩, ⟨"B", "A", EdgeType.wiki⟩, ⟨"A", "B", EdgeType.wiki⟩]⟩ ∧
    (graphQuery cycleVault ⟨some "A", some 5, some Direction.out⟩).edges.toFinset =
      ([⟨"A", "B", EdgeType.wiki⟩, ⟨"B", "A", EdgeType.wiki⟩] : List GraphEdge).toFinset := by
  decide

theorem addNode_edges (st : TravState) (f : TFile) : (addNode st f).edges = st.edges := by
  unfold addNode
  split <;> rfl

theorem hasNode_addNode (st : TravState) (f : TFile) (i : String)
    (h : hasNode st i = true) : hasNode (addNode st f) i = true := by
  unfold hasNode addNode at *
  split
  · exact h
  · simp only [List.any_append, h, Bool.true_or]

theorem hasNode_addNode_self (st : TravState) (f : TFile) :
    hasNode (addNode st f) (stripMd f.path) = true := by
  unfold hasNode addNode
  split
  next h => exact h
  next h => simp [List.any_append]

theorem edgesCovered_addNode (st : TravState) (f : TFile) (h : edgesCovered st) :
    edgesCovered (addNode st f) := by
  intro e he
  rw [addNode_edges] at he
  obtain ⟨h1, h2⟩ := h e he
  exact ⟨hasNode_addNode _ _ _ h1, hasNode_addNode _ _ _ h2⟩

theorem edgesCovered_pushEdge (st : TravState) (e : GraphEdge) (h : edgesCovered st)
    (hs : hasNode st e.source = true) (ht : hasNode st e.target = true) :
    edgesCovered (pushEdge st e) := by
  intro x hx
  have : x ∈ st.edges ++ [e] := hx
  rw [List.mem_append] at this
  rcases this with hx2 | hx2
  · exact h x hx2
  · simp at hx2
    subst hx2
    exact ⟨hs, ht⟩

theorem snapEdgeStep_covered (fid : String) (st : TravState) (te : TFile × EdgeType)
    (h : edgesCovered st) (hfid : hasNode st fid = true) :
    edgesCovered (snapEdgeStep fid st te) ∧ hasNode (snapEdgeStep fid st te) fid = true := by
  unfold snapEdgeStep
  have h2 : hasNode (addNode st te.1) fid = true := hasNode_addNode _ _ _ hfid
  exact ⟨edgesCovered_pushEdge _ _ (edgesCovered_addNode _ _ h) h2 (hasNode_addNode_self _ _), h2⟩

theorem outStep_covered (rec : String → TravState → TravState)
    (hrecC : ∀ p st, edgesCovered st → edgesCovered (rec p st))
    (hrecM : ∀ p st i, hasNode st i = true → hasNode (rec p st) i = true)
    (fid : String) (st : TravState) (te : TFile × EdgeType)
    (h : edgesCovered st) (hfid : hasNode st fid = true) :
    edgesCovered (outStep rec fid st te) ∧ hasNode (outStep rec fid st te) fid = true := by
  unfold outStep
  obtain ⟨hc, hf⟩ := snapEdgeStep_covered fid st te h hfid
  exact ⟨hrecC _ _ hc, hrecM _ _ _ hf⟩

theorem innStep_covered (v : Vault) (rec : String → TravState → TravState)
    (hrecC : ∀ p st, edgesCovered st → edgesCovered (rec p st))
    (hrecM : ∀ p st i, hasNode st i = true → hasNode (rec p st) i = true)
    (fpath fid : String) (st : TravState) (other : TFile)
    (h : edgesCovered st) (hfid : hasNode st fid = true) :
    edgesCovered (innStep v rec fpath fid st other) ∧
    hasNode (innStep v rec fpath fid st other) fid = true := by
  unfold innStep
  split
  · exact ⟨h, hfid⟩
  · split
    · exact ⟨h, hfid⟩
    · split
      · exact ⟨h, hfid⟩
      · constructor
        · apply hrecC
          apply edgesCovered_pushEdge
          · exact edgesCovered_addNode _ _ h
          · exact hasNode_addNode_self _ _
          · exact hasNode_addNode _ _ _ hfid
        · exact hrecM _ _ _ (hasNode_addNode _ _ _ hfid)

theorem covered_foldl_out (rec : String → TravState → TravState)
    (hrecC : ∀ p st, edgesCovered st → edgesCovered (rec p st))
    (hrecM : ∀ p st i, hasNode st i = true → hasNode (rec p st) i = true)
    (fid : String) (l : List (TFile × EdgeType)) (s : TravState)
    (hc : edgesCovered s) (hf : hasNode s fid = true) :
    edgesCovered (l.foldl (outStep rec fid) s) ∧
    hasNode (l.foldl (outStep rec fid) s) fid = true :=
  foldl_preserve (P := fun s => edgesCovered s ∧ hasNode s fid = true) _ l
    (fun s te _ hp => outStep_covered rec hrecC hrecM fid s te hp.1 hp.2) s ⟨hc, hf⟩

theorem covered_foldl_inn (v : Vault) (rec : String → TravState → TravState)
    (hrecC : ∀ p st, edgesCovered st → edgesCovered (rec p st))
    (hrecM : ∀ p st i, hasNode st i = true → hasNode (rec p st) i = true)
    (fpath fid : String) (l : List TFile) (s : TravState)
    (hc : edgesCovered s) (hf : hasNode s fid = true) :
    edgesCovered (l.foldl (innStep v rec fpath fid) s) ∧
    hasNode (l.foldl (innStep v rec fpath fid) s) fid = true :=
  foldl_preserve (P := fun s => edgesCovered s ∧ hasNode s fid = true) _ l
    (fun s other _ hp => innStep_covered v rec hrecC hrecM fpath fid s other hp.1 hp.2) s ⟨hc, hf⟩

theorem expandFile_covered (v : Vault) (dir : Direction)
    (rec : String → TravState → TravState)
    (hrecC : ∀ p st, edgesCovered st → edgesCovered (rec p st))
    (hrecM : ∀ p st i, hasNode st i = true → hasNode (rec p st) i = true)
    (file : TFile) (st : TravState) (h : edgesCovered st) :
    edgesCovered (expandFile v dir rec file st) := by
  unfold expandFile
  have base : edgesCovered (addNode st file) ∧
      hasNode (addNode st file) (stripMd file.path) = true :=
    ⟨edgesCovered_addNode _ _ h, hasNode_addNode_self _ _⟩
  by_cases h1 : dir = Direction.out ∨ dir = Direction.both <;>
    by_cases h2 : dir = Direction.inn ∨ dir = Direction.both
  · simp only [if_pos h1, if_pos h2]
    have hmid := covered_foldl_out rec hrecC hrecM (stripMd file.path)
      (getOutlinks v file) (addNode st file) base.1 base.2
    exact (covered_foldl_inn v rec hrecC hrecM file.path (stripMd file.path)
      v.files _ hmid.1 hmid.2).1
  · simp only [if_pos h1, if_neg h2]
    exact (covered_foldl_out rec hrecC hrecM (stripMd file.path)
      (getOutlinks v file) (addNode st file) base.1 base.2).1
  · simp only [if_neg h1, if_pos h2]
    exact (covered_foldl_inn v rec hrecC hrecM file.path (stripMd file.path)
      v.files _ base.1 base.2).1
  · simp only [if_neg h1, if_neg h2]
    exact base.1

theorem expandFile_mono (v : Vault) (dir : Direction)
    (rec : String → TravState → TravState)
    (hrecM : ∀ p st i, hasNode st i = true → hasNode (rec p st) i = true)
    (file : TFile) (st : TravState) (i : String) (h : hasNode st i = true) :
    hasNode (expandFile v dir rec file st) i = true := by
  unfold expandFile
  have base : hasNode (addNode st file) i = true := hasNode_addNode _ _ _ h
  have hout : ∀ (l : List (TFile × EdgeType)) s, hasNode s i = true →
      hasNode (l.foldl (outStep rec (stripMd file.path)) s) i = true := fun l s hs =>
    foldl_preserve (P := fun s => hasNode s i = true) _ l
      (fun s te _ hp => by
        unfold outStep
        exact hrecM _ _ _ (by
          unfold snapEdgeStep
          exact hasNode_addNode _ _ _ hp)) s hs
  have hinn : ∀ (l : List TFile) s, hasNode s i = true →
      hasNode (l.foldl (innStep v rec file.path (stripMd file.path)) s) i = true := fun l s hs =>
    foldl_preserve (P := fun s => hasNode s i = true) _ l
      (fun s other _ hp => by
        unfold innStep
        split
        · exact hp
        · split
          · exact hp
          · split
            · exact hp
            · exact hrecM _ _ _ (hasNode_addNode _ _ _ hp)) s hs
  by_cases h1 : dir = Direction.out ∨ dir = Direction.both <;>
    by_cases h2 : dir = Direction.inn ∨ dir = Direction.both
  · simp only [if_pos h1, if_pos h2]
    exact hinn _ _ (hout _ _ base)
  · simp only [if_pos h1, if_neg h2]
    exact hout _ _ base
  · simp only [if_neg h1, if_pos h2]
    exact hinn _ _ base
  · simp only [if_neg h1, if_neg h2]
    exact base

theorem traverseStep_covered (v : Vault) (dir : Direction)
    (rec : String → TravState → TravState)
    (hrecC : ∀ p st, edgesCovered st → edgesCovered (rec p st))
    (hrecM : ∀ p st i, hasNode st i = true → hasNode (rec p st) i = true)
    (p : String) (st : TravState) (h : edgesCovered st) :
    edgesCovered (traverseStep v dir rec p st) := by
  unfold traverseStep
  split
  · exact h
  · cases hl : lookupFile v p with
    | none => simp only [hl]; exact h
    | some file =>
      simp only [hl]
      exact expandFile_covered v dir rec hrecC hrecM file _ h

theorem traverseStep_mono (v : Vault) (dir : Direction)
    (rec : String → TravState → TravState)
    (hrecM : ∀ p st i, hasNode st i = true → hasNode (rec p st) i = true)
    (p : String) (st : TravState) (i : String) (h : hasNode st i = true) :
    hasNode (traverseStep v dir rec p st) i = true := by
  unfold traverseStep
  split
  · exact h
  · cases hl : lookupFile v p with
    | none => simp only [hl]; exact h
    | some file =>
      simp only [hl]
      exact expandFile_mono v dir rec hrecM file _ i h

theorem traverse_mono (v : Vault) (dir : Direction) :
    ∀ (fuel : Nat) (p : String) (st : TravState) (i : String),
      hasNode st i = true → hasNode (traverse v dir fuel p st) i = true := by
  intro fuel
  induction fuel with
  | zero => intro p st i h; exact h
  | succ n ih =>
    intro p st i h
    exact traverseStep_mono v dir (traverse v dir n) (fun p st i h => ih p st i h) p st i h

theorem traverse_covered (v : Vault) (dir : Direction) :
    ∀ (fuel : Nat) (p : String) (st : TravState),
      edgesCovered st → edgesCovered (traverse v dir fuel p st) := by
  intro fuel
  induction fuel with
  | zero => intro p st h; exact h
  | succ n ih =>
    intro p st h
    exact traverseStep_covered v dir (traverse v dir n)
      (fun p st h => ih p st h) (fun p st i h => traverse_mono v dir n p st i h) p st h

theorem snapshotStep_covered (v : Vault) (st : TravState) (file : TFile)
    (h : edgesCovered st) : edgesCovered (snapshotStep v st file) := by
  simp only [snapshotStep]
  rw [← outStep_id (stripMd file.path)]
  exact (covered_foldl_out (fun _ s => s) (fun _ _ hc => hc) (fun _ _ _ hh => hh)
    (stripMd file.path) (getOutlinks v file) (addNode st file)
    (edgesCovered_addNode _ _ h) (hasNode_addNode_self _ _)).1

theorem edgesCovered_empty : edgesCovered emptyTrav := by
  intro e he
  simp [emptyTrav] at he

theorem snapshot_covered (v : Vault) : edgesCovered (snapshot v) :=
  foldl_preserve (P := edgesCovered) _ _
    (fun s f _ hp => snapshotStep_covered v s f hp) _ edgesCovered_empty

/-- C8: both endpoints of every accumulated edge are already in the
accumulated node set — the property is preserved by every traversal
expansion and by every snapshot iteration, hence holds of every point of
the construction and of the final result of every graph query, in both
the start-node mode and the whole-graph snapshot mode. -/
theorem traversal_nodes_cover_edges :
    (∀ (v : Vault) (dir : Direction) (fuel : Nat) (p : String) (st : TravState),
       edgesCovered st → edgesCovered (traverse v dir fuel p st)) ∧
    (∀ (v : Vault) (st : TravState) (file : TFile),
       edgesCovered st → edgesCovered (snapshotStep v st file)) ∧
    (∀ (v : Vault) (body : GraphQueryBody) (e : GraphEdge),
       e ∈ (graphQuery v body).edges →
       ((graphQuery v body).nodes.any fun n => n.id == e.source) = true ∧
       ((graphQuery v body).nodes.any fun n => n.id == e.target) = true) := by
  refine ⟨fun v dir fuel p st h => traverse_covered v dir fuel p st h,
    fun v st file h => snapshotStep_covered v st file h, ?_⟩
  intro v body e he
  rcases body with ⟨fp, dp, dirp⟩
  rcases fp with _ | f
  · exact snapshot_covered v e he
  · by_cases hf : f = ""
    · subst hf
      exact snapshot_covered v e he
    · have hq : graphQuery v ⟨some f, dp, dirp⟩ =
          ⟨(traverse v (dirp.getD .both) ((dp.getD 1) + 1) f emptyTrav).nodes,
           (traverse v (dirp.getD .both) ((dp.getD 1) + 1) f emptyTrav).edges⟩ := by
        simp [graphQuery, hf]
      rw [hq] at he ⊢
      exact traverse_covered v _ _ f emptyTrav edgesCovered_empty e he

theorem traversal_nodes_cover_edges_witness :
    edgesCovered (traverse cycleVault Direction.out 6 "A" emptyTrav) :=
  traversal_nodes_cover_edges.1 cycleVault Direction.out 6 "A" emptyTrav
    edgesCovered_empty

theorem snapshotStep_src (v : Vault) (ids : List String) (file : TFile)
    (hf : stripMd file.path ∈ ids) (s : TravState)
    (hp : ∀ e ∈ s.edges, e.source ∈ ids) :
    ∀ e ∈ (snapshotStep v s file).edges, e.source ∈ ids := by
  simp only [snapshotStep]
  refine foldl_preserve (P := fun st : TravState => ∀ e ∈ st.edges, e.source ∈ ids) _ _ ?_ _ ?_
  · intro s2 te _ hp2 e he
    have hed : (snapEdgeStep (stripMd file.path) s2 te).edges =
        s2.edges ++ [⟨stripMd file.path, stripMd te.1.path, te.2⟩] := by
      unfold snapEdgeStep pushEdge
      rw [addNode_edges]
    rw [hed, List.mem_append] at he
    rcases he with he | he
    · exact hp2 e he
    · simp at he
      subst he
      exact hf
  · intro e he
    rw [addNode_edges] at he
    exact hp e he

/-- C10: a graph-query body omitting depth behaves as depth one and one
omitting direction behaves as direction both; a body omitting the start
note yields the whole-graph snapshot (ignoring depth and direction), and
every edge of that snapshot has as source one of the first hundred
files. -/
theorem graph_query_defaults :
    (∀ (v : Vault) (fp : Option String) (dp : Option Direction),
       graphQuery v ⟨fp, none, dp⟩ = graphQuery v ⟨fp, some 1, dp⟩) ∧
    (∀ (v : Vault) (fp : Option String) (d : Option Nat),
       graphQuery v ⟨fp, d, none⟩ = graphQuery v ⟨fp, d, some .both⟩) ∧
    (∀ (v : Vault) (d : Option Nat) (dp : Option Direction),
       graphQuery v ⟨none, d, dp⟩ = ⟨(snapshot v).nodes, (snapshot v).edges⟩) ∧
    (∀ (v : Vault), ∀ e ∈ (snapshot v).edges,
       e.source ∈ (v.files.take 100).map (fun f => stripMd f.path)) := by
  refine ⟨fun _ _ _ => rfl, fun _ _ _ => rfl, fun _ _ _ => rfl, ?_⟩
  intro v e he
  unfold snapshot at he
  refine foldl_preserve
    (P := fun st : TravState =>
      ∀ e ∈ st.edges, e.source ∈ (v.files.take 100).map (fun f => stripMd f.path))
    (snapshotStep v) (v.files.take 100) ?_ emptyTrav ?_ e he
  · intro s file hmem hp
    exact snapshotStep_src v _ file (List.mem_map_of_mem (fun g => stripMd g.path) hmem) s hp
  · intro e he
    simp [emptyTrav] at he

theorem graph_query_defaults_witness :
    (⟨"A", "B", EdgeType.wiki⟩ : GraphEdge).source ∈
      (cycleVault.files.take 100).map (fun f => stripMd f.path) :=
  graph_query_defaults.2.2.2 cycleVault ⟨"A", "B", EdgeType.wiki⟩ (by decide)

theorem health_noninterference_witness :
    dispatchPre (some "tok") ⟨"vaultX", 7⟩ ⟨"GET", "/health", none⟩ =
      .responded 200 healthMinimal ∧
    dispatchPre none ⟨"vaultX", 7⟩ ⟨"GET", "/health", none⟩ =
      .responded 200 (healthFull ⟨"vaultX", 7⟩) :=
  ⟨(health_noninterference.1 (some "tok") none ⟨"vaultX", 7⟩ ⟨"other", 0⟩ (by decide)).1,
   health_noninterference.2 none none ⟨"vaultX", 7⟩ (by decide)⟩

theorem strData_inj {s t : String} (h : s.data = t.data) : s = t := by
  cases s
  cases t
  cases h
  rfl

theorem strEndsWith_append_md (y : String) : strEndsWith (y ++ ".md") ".md" = true := by
  unfold strEndsWith
  rw [String.data_append, List.isSuffixOf_iff_suffix]
  exact List.suffix_append y.data _

theorem stripMd_append (y : String) : stripMd (y ++ ".md") = y := by
  unfold stripMd
  rw [if_pos (strEndsWith_append_md y)]
  rw [String.data_append]
  have h3 : (".md".data).length = 3 := rfl
  have hlen : (y.data ++ ".md".data).length - 3 = y.data.length := by
    simp [List.length_append, h3]
  rw [hlen, List.take_left]

theorem stripMd_append_of_endsWith (s : String) (h : strEndsWith s ".md" = true) :
    stripMd s ++ ".md" = s := by
  unfold strEndsWith at h
  rw [List.isSuffixOf_iff_suffix] at h
  obtain ⟨pre, hpre⟩ := h
  have hs : s = (⟨pre⟩ : String) ++ ".md" :=
    strData_inj (by rw [String.data_append]; exact hpre.symm)
  rw [hs, stripMd_append]

theorem startsWith_append_mono (y z : String) (h : strStartsWith y "/" = true) :
    strStartsWith (y ++ z) "/" = true := by
  unfold strStartsWith at *
  rw [String.data_append]
  rw [List.isPrefixOf_iff_prefix] at *
  exact h.trans (List.prefix_append _ _)

theorem normalizePath_no_slash_no_md (y : String)
    (h1 : strStartsWith y "/" = false) (h2 : strEndsWith y ".md" = false) :
    normalizePath y = y ++ ".md" := by
  simp [normalizePath, h1, h2]

theorem outlinkLinkStep_fold_mem (v : Vault) (sp content : String) (links : List LinkCache) :
    ∀ (acc : List LinkInfo × List String) (e : LinkInfo),
      e ∈ (links.foldl (outlinkLinkStep v sp content) acc).1 →
      e ∈ acc.1 ∨ ∃ l ∈ links,
        (∃ r, v.resolve l.link sp = some r ∧
           e = ⟨stripMd r.path, r.basename, true, getContext content l.original⟩) ∨
        (v.resolve l.link sp = none ∧
           e = ⟨l.link, l.link, false, getContext content l.original⟩) := by
  induction links with
  | nil => intro acc e he; exact Or.inl he
  | cons l ls ih =>
    intro acc e he
    rw [List.foldl_cons] at he
    rcases ih _ e he with h | ⟨l2, hl2, hcase⟩
    · unfold outlinkLinkStep at h
      by_cases hseen : acc.2.contains l.link
      · rw [if_pos hseen] at h
        exact Or.inl h
      · rw [if_neg hseen] at h
        rcases hr : v.resolve l.link sp with _ | r
        · simp only [hr] at h
          rcases List.mem_append.mp h with h2 | h2
          · exact Or.inl h2
          · refine Or.inr ⟨l, List.mem_cons_self _ _, Or.inr ⟨hr, ?_⟩⟩
            simpa using h2
        · simp only [hr] at h
          rcases List.mem_append.mp h with h2 | h2
          · exact Or.inl h2
          · refine Or.inr ⟨l, List.mem_cons_self _ _, Or.inl ⟨r, hr, ?_⟩⟩
            simpa using h2
    · exact Or.inr ⟨l2, List.mem_cons_of_mem _ hl2, hcase⟩

theorem outlinkEmbedStep_fold_mem (v : Vault) (sp content : String) (embeds : List LinkCache) :
    ∀ (acc : List LinkInfo × List String) (e : LinkInfo),
      e ∈ (embeds.foldl (outlinkEmbedStep v sp content) acc).1 →
      e ∈ acc.1 ∨ ∃ l ∈ embeds, ∃ r,
        v.resolve l.link sp = some r ∧ r.extension = "md" ∧
        e = ⟨stripMd r.path, r.basename, true, getContext content l.original⟩ := by
  induction embeds with
  | nil => intro acc e he; exact Or.inl he
  | cons l ls ih =>
    intro acc e he
    rw [List.foldl_cons] at he
    rcases ih _ e he with h | ⟨l2, hl2, hcase⟩
    · unfold outlinkEmbedStep at h
      by_cases hseen : acc.2.contains l.link
      · rw [if_pos hseen] at h
        exact Or.inl h
      · rw [if_neg hseen] at h
        rcases hr : v.resolve l.link sp with _ | r
        · simp only [hr] at h
          exact Or.inl h
        · simp only [hr] at h
          by_cases hext : r.extension = "md"
          · rw [if_pos hext] at h
            rcases List.mem_append.mp h with h2 | h2
            · exact Or.inl h2
            · refine Or.inr ⟨l, List.mem_cons_self _ _, r, hr, hext, ?_⟩
              simpa using h2
          · rw [if_neg hext] at h
            exact Or.inl h
    · exact Or.inr ⟨l2, List.mem_cons_of_mem _ hl2, hcase⟩

theorem outlinks_entry_inversion (v : Vault) (X : String) (out : List LinkInfo)
    (hout : outlinksHandler v X = .ok out) (e : LinkInfo)
    (he : e ∈ out) (hex : e.exists_ = true) :
    ∃ S, getAbstractFileByPath v (normalizePath X) = some S ∧
      (∃ content, v.read S = some content) ∧
      ∃ c, v.cache S = some c ∧ ∃ l ∈ c.links ++ c.embeds, ∃ r,
        v.resolve l.link (normalizePath X) = some r ∧ stripMd r.path = e.path := by
  unfold outlinksHandler at hout
  rcases hS : getAbstractFileByPath v (normalizePath X) with _ | S
  · simp only [hS] at hout
    cases hout
  · simp only [hS] at hout
    rcases hread : v.read S with _ | content
    · simp only [hread] at hout
      cases hout
    · simp only [hread] at hout
      rcases hc : v.cache S with _ | c
      · simp only [hc] at hout
        simp only [List.foldl_nil, Except.ok.injEq] at hout
        rw [← hout] at he
        cases he
      · simp only [hc, Except.ok.injEq] at hout
        rw [← hout] at he
        rcases outlinkEmbedStep_fold_mem v (normalizePath X) content c.embeds _ e he with
          hlinks | ⟨l, hl, r, hres, _, hee⟩
        · rcases outlinkLinkStep_fold_mem v (normalizePath X) content c.links _ e hlinks with
            hacc | ⟨l, hl, hcase⟩
          · cases hacc
          · rcases hcase with ⟨r, hres, hee⟩ | ⟨_, hee⟩
            · exact ⟨S, rfl, ⟨content, hread⟩, c, hc, l, List.mem_append_left _ hl, r, hres,
                by rw [hee]⟩
            · rw [hee] at hex
              cases hex
        · exact ⟨S, rfl, ⟨content, hread⟩, c, hc, l, List.mem_append_right _ hl, r, hres,
            by rw [hee]⟩

/-- C3 (amended): if the outlinks query on X reports a resolved reference
to Y and Y is a different note than X, then the backlinks query on Y
succeeds and includes X; the case X = Y is excluded because the backlink
scan skips the target note itself (see the counterexample). -/
theorem backlink_outlink_symmetry (v : Vault) (X Y : String) (out : List LinkInfo)
    (hwf : VaultWF v)
    (hout : outlinksHandler v X = .ok out)
    (e : LinkInfo) (he : e ∈ out) (hex : e.exists_ = true) (hpath : e.path = Y)
    (hne : normalizePath X ≠ normalizePath Y) :
    ∃ bl, backlinksHandler v Y = .ok bl ∧
      ∃ b ∈ bl, b.note.path = stripMd (normalizePath X) := by
  obtain ⟨S, hS, ⟨content, hread⟩, c, hc, l, hl, r, hres, hrY⟩ :=
    outlinks_entry_inversion v X out hout e he hex
  have hSfind := hS
  unfold getAbstractFileByPath at hSfind
  have hSmem : S ∈ v.files := List.mem_of_find?_eq_some hSfind
  have hSpath : S.path = normalizePath X := by
    have := List.find?_some hSfind
    simpa using this
  have hrmem : r ∈ v.files := hwf.resolve_mem _ _ _ hres
  have hrmd : strEndsWith r.path ".md" = true := hwf.paths_md r hrmem
  have hYeq : stripMd r.path = Y := by rw [hrY, hpath]
  have hYr : Y ++ ".md" = r.path := by
    rw [← hYeq]
    exact stripMd_append_of_endsWith _ hrmd
  have hYnosl : strStartsWith Y "/" = false := by
    rcases hb : strStartsWith Y "/" with _ | _
    · rfl
    · exfalso
      have h2 := startsWith_append_mono Y ".md" hb
      rw [hYr] at h2
      rw [hwf.no_lead_slash r hrmem] at h2
      cases h2
  have hYnomd : strEndsWith Y ".md" = false := by
    rw [← hYeq]
    exact hwf.no_double_md r hrmem
  have hnY : normalizePath Y = r.path := by
    rw [normalizePath_no_slash_no_md Y hYnosl hYnomd, hYr]
  have hTex : ∃ T, getAbstractFileByPath v (normalizePath Y) = some T := by
    unfold getAbstractFileByPath
    have : (v.files.find? (fun f => f.path == normalizePath Y)).isSome :=
      List.find?_isSome.mpr ⟨r, hrmem, by rw [hnY]; simp⟩
    exact Option.isSome_iff_exists.mp this
  obtain ⟨T, hT⟩ := hTex
  have hSentry : backlinkEntry v (normalizePath Y) T.basename S =
      [⟨fileToNoteInfo v S (v.cache S),
        match wikiLinkMatch content T.basename with
        | some m => getContext content m
        | none => ""⟩] := by
    unfold backlinkEntry
    rw [if_neg (by rw [hSpath]; exact hne)]
    simp only [hc]
    have hhas : ((c.links ++ c.embeds).any (fun l2 =>
        (v.resolve l2.link S.path).map TFile.path == some (normalizePath Y))) = true := by
      rw [List.any_eq_true]
      refine ⟨l, hl, ?_⟩
      rw [hSpath, hres]
      simp [hnY]
    rw [if_pos hhas]
    simp only [hread]
  unfold backlinksHandler
  simp only [hT]
  refine ⟨_, rfl, ?_⟩
  refine ⟨⟨fileToNoteInfo v S (v.cache S),
    match wikiLinkMatch content T.basename with
    | some m => getContext content m
    | none => ""⟩, ?_, ?_⟩
  · rw [List.mem_flatMap]
    refine ⟨S, hSmem, ?_⟩
    rw [hSentry]
    exact List.mem_singleton.mpr rfl
  · show (fileToNoteInfo v S (v.cache S)).path = stripMd (normalizePath X)
    simp only [fileToNoteInfo]
    rw [hSpath]

theorem cycleVault_WF : VaultWF cycleVault := by
  refine ⟨by decide, by decide, by decide, by decide, ?_⟩
  intro l src f h
  simp only [cycleVault] at h
  by_cases hb : l = "B"
  · rw [if_pos hb] at h
    cases h
    decide
  · rw [if_neg hb] at h
    by_cases ha : l = "A"
    · rw [if_pos ha] at h
      cases h
      decide
    · rw [if_neg ha] at h
      cases h

theorem backlink_outlink_symmetry_witness :
    ∃ bl, backlinksHandler cycleVault "B" = .ok bl ∧
      ∃ b ∈ bl, b.note.path = stripMd (normalizePath "A") :=
  backlink_outlink_symmetry cycleVault "A" "B"
    [⟨"B", "B", true, "a text [[B]]"⟩] cycleVault_WF (by decide)
    ⟨"B", "B", true, "a text [[B]]"⟩ (by decide) (by decide) (by decide) (by decide)

/-- C3 (counterexample): in the one-note vault whose note A links to
itself, the outlinks query on A reports a resolved reference to A, but
the backlinks query on A returns the empty list — the scan skips the
target file itself, so the claimed symmetry fails for a self-link. -/
theorem backlink_self_counterexample :
    outlinksHandler selfVault "A" =
      .ok [⟨"A", "A", true, "self link [[A]] here"⟩] ∧
    backlinksHandler selfVault "A" = .ok [] := by
  decide

theorem processBatchAux_eq_filterMap {α β : Type} (proc : α → Except String (Option β))
    (bs : Nat) (hbs : 1 ≤ bs) :
    ∀ (fuel : Nat) (items : List α), items.length ≤ fuel →
      processBatchAux proc bs fuel items = items.filterMap (runItem proc) := by
  intro fuel
  induction fuel with
  | zero =>
    intro items h
    have hnil : items = [] := List.length_eq_zero.mp (Nat.le_zero.mp h)
    subst hnil
    rfl
  | succ n ih =>
    intro items h
    match items with
    | [] => rfl
    | x :: xs =>
      simp only [List.length_cons] at h
      simp only [processBatchAux]
      rw [ih ((x :: xs).drop bs) (by simp only [List.length_drop, List.length_cons]; omega)]
      rw [List.filterMap_map]
      simp only [Function.comp_def, id_eq]
      rw [← List.filterMap_append, List.take_append_drop]

theorem processBatch_eq_filterMap {α β : Type} (proc : α → Except String (Option β))
    (bs : Nat) (hbs : 1 ≤ bs) (items : List α) :
    processBatch items proc bs = items.filterMap (runItem proc) :=
  processBatchAux_eq_filterMap proc bs hbs items.length items (Nat.le_refl _)

theorem filterMap_runItem_bad {α β : Type} [DecidableEq α] (f : α → β) (bad : α)
    (err : String) :
    ∀ items : List α,
      items.filterMap
        (runItem (fun a => if a = bad then Except.error err else Except.ok (some (f a))))
        = (items.filter (fun a => a ≠ bad)).map f := by
  intro items
  induction items with
  | nil => rfl
  | cons x xs ih =>
    rw [List.filterMap_cons, List.filter_cons]
    by_cases hx : x = bad
    · subst hx
      simp [runItem, ih]
    · simp [runItem, hx, ih]

theorem searchFileStep_skip (v : Vault) (cs : Bool) (q : String) (lim : Nat)
    (bad : TFile) (h : v.read bad = none) (s : List SearchResult) :
    searchFileStep v cs q lim s bad = s := by
  unfold searchFileStep
  split
  · rfl
  · simp [h]

theorem foldl_skip_filter {α σ : Type _} (f : σ → α → σ) (p : α → Bool)
    (h : ∀ s a, p a = false → f s a = s) :
    ∀ (l : List α) (s : σ), l.foldl f s = (l.filter p).foldl f s := by
  intro l
  induction l with
  | nil => intro s; rfl
  | cons x xs ih =>
    intro s
    rw [List.foldl_cons]
    rcases hx : p x with _ | _
    · rw [List.filter_cons_of_neg (by simp [hx]), h s x hx]
      exact ih s
    · rw [List.filter_cons_of_pos (by simp [hx]), List.foldl_cons]
      exact ih (f s x)

theorem searchFileStep_files_irrel (v : Vault) (X : List TFile) :
    searchFileStep { v with files := X } = searchFileStep v := rfl

theorem searchFold_skip_bad (v : Vault) (cs : Bool) (q : String) (lim : Nat)
    (bad : TFile) (hbad : v.read bad = none) (l : List TFile) (s : List SearchResult) :
    l.foldl (searchFileStep v cs q lim) s =
      (l.filter (fun f => f ≠ bad)).foldl (searchFileStep v cs q lim) s := by
  apply foldl_skip_filter
  intro s a ha
  have : a = bad := by
    by_cases h : a = bad
    · exact h
    · simp [h] at ha
  subst this
  exact searchFileStep_skip v cs q lim a hbad s

theorem search_read_failure_isolated (v : Vault) (bad : TFile) (b : SearchBody)
    (hbad : v.read bad = none) :
    searchRoute v b = searchRoute { v with files := v.files.filter (fun f => f ≠ bad) } b := by
  by_cases hq : b.query.getD "" = ""
  · simp only [searchRoute, if_pos hq]
  · simp only [searchRoute, if_neg hq, searchFileStep_files_irrel]
    rcases b.folder with _ | folder
    · rw [searchFold_skip_bad v _ _ _ bad hbad]
    · simp only []
      by_cases hf : folder = ""
      · rw [if_pos hf, if_pos hf]
        rw [searchFold_skip_bad v _ _ _ bad hbad]
      · rw [if_neg hf, if_neg hf]
        rw [searchFold_skip_bad v _ _ _ bad hbad]
        rw [List.filter_filter, List.filter_filter]
        have hcomm : (fun (a : TFile) => decide (a ≠ bad) && strStartsWith a.path folder) =
            (fun a => strStartsWith a.path folder && decide (a ≠ bad)) := by
          funext a
          exact Bool.and_comm _ _
        rw [hcomm]

/-- C9: bulk scans isolate per-note failures.  First, for a batch over
any item list where exactly one item throws, processBatch (at the batch
width fifty used by the routes) returns exactly the processed results of
the remaining items, in order.  Second, the backlinks scan never fails
the request once the target note exists, whatever the read function
does.  Third, the search route returns the same response on a vault
where one note's read throws as on the vault with that note absent, so
the other notes' results are unaffected. -/
theorem bulk_error_isolation :
    (∀ (α β : Type) [DecidableEq α] (items : List α) (f : α → β) (bad : α) (err : String),
       processBatch items
         (fun a => if a = bad then Except.error err else Except.ok (some (f a))) 50
         = (items.filter (fun a => a ≠ bad)).map f) ∧
    (∀ (v : Vault) (Y : String) (T : TFile),
       getAbstractFileByPath v (normalizePath Y) = some T →
       ∃ bl, backlinksHandler v Y = .ok bl) ∧
    (∀ (v : Vault) (bad : TFile) (b : SearchBody), v.read bad = none →
       searchRoute v b = searchRoute { v with files := v.files.filter (fun f => f ≠ bad) } b) := by
  refine ⟨?_, ?_, fun v bad b h => search_read_failure_isolated v bad b h⟩
  · intro α β _ items f bad err
    rw [processBatch_eq_filterMap _ 50 (by omega) items]
    exact filterMap_runItem_bad f bad err items
  · intro v Y T hT
    unfold backlinksHandler
    simp only [hT]
    exact ⟨_, rfl⟩

theorem bulk_error_isolation_witness :
    processBatch [1, 2, 3]
      (fun a => if a = 2 then Except.error "boom" else Except.ok (some (a * 10))) 50
      = ([1, 2, 3].filter (fun a => a ≠ 2)).map (fun a => a * 10) ∧
    (∃ bl, backlinksHandler cycleVault "B" = .ok bl) ∧
    searchRoute brokenReadVault ⟨some "text", none, none, none⟩ =
      searchRoute
        { brokenReadVault with files := brokenReadVault.files.filter (fun f => f ≠ fileB) }
        ⟨some "text", none, none, none⟩ :=
  ⟨bulk_error_isolation.1 Nat Nat [1, 2, 3] (fun a => a * 10) 2 "boom",
   bulk_error_isolation.2.1 cycleVault "B" fileB (by decide),
   bulk_error_isolation.2.2 brokenReadVault fileB ⟨some "text", none, none, none⟩ (by decide)⟩

end Petra
